import Mathlib

/-!
Shallow embedding of the ontology-grounded graph construction and
validation engine (co-occurrence graph builder, link predictor, graph
validator with fuzzy matching and taxonomic distance), together with
proofs of its specified properties.

Conventions of the embedding:
* Python dictionaries are association lists; insertion order is kept.
* Python floats that only carry scores/averages are rationals.
* `float('inf')` outcomes of the semantic distance are `Option.none`.
* External libraries (networkx storage, rapidfuzz, owlready2 search)
  enter as explicit function parameters (oracles); the code of this
  repository is translated literally.
-/

namespace NeuroKG

/-- First-match lookup in an association list (Python dict access). -/
def lookupD {α β : Type} [DecidableEq α] : List (α × β) → α → Option β
  | [], _ => none
  | (k, v) :: t, a => if k = a then some v else lookupD t a

/-- Python `str.lower()` (character-wise lowering). -/
def pyLower (s : String) : String :=
  String.mk (s.data.map Char.toLower)

/-- Python `str.strip()`: drop leading and trailing whitespace. -/
def pyStrip (s : String) : String :=
  String.mk (((s.data.dropWhile Char.isWhitespace).reverse.dropWhile
    Char.isWhitespace).reverse)

/-! ## `src/graph.py` — co-occurrence graph

A `networkx.Graph` restricted to what `Graph` uses: undirected edges,
each carrying an integer `weight` attribute.  We store the adjacency
as a list of records `(source, target, weight)`; an unordered edge
matches a record in either orientation. -/

/-- One stored edge record: endpoints and weight. -/
abbrev ERec := String × String × ℕ

/-- Two unordered endpoint pairs denote the same edge. -/
def samePair (p q : String × String) : Prop :=
  (p.1 = q.1 ∧ p.2 = q.2) ∨ (p.1 = q.2 ∧ p.2 = q.1)

instance (p q : String × String) : Decidable (samePair p q) := by
  unfold samePair; infer_instance

/-- `nx.Graph.has_edge`-style record test for the unordered pair `{a, b}`. -/
def isEdge (a b : String) (e : ERec) : Bool :=
  decide (samePair (a, b) (e.1, e.2.1))

/-- Weight of the edge `{a, b}` if present (`graph[source][target]["weight"]`). -/
def getWeight (g : List ERec) (a b : String) : Option ℕ :=
  (g.find? (isEdge a b)).map (fun e => e.2.2)

/-- Increment the weight of the first record for `{a, b}` (the unique one
in a well-formed graph). -/
def bumpWeight (a b : String) : List ERec → List ERec
  | [] => []
  | e :: t => if isEdge a b e then (e.1, e.2.1, e.2.2 + 1) :: t else e :: bumpWeight a b t

/-- `Graph.add_edge`: if the connection exists, raise its weight
(frequency); otherwise create the edge with weight 1. -/
def add_edge (g : List ERec) (source target : String) : List ERec :=
  if (g.find? (isEdge source target)).isSome then bumpWeight source target g
  else g ++ [(source, target, 1)]

/-- `itertools.combinations(l, 2)`: all index-ordered pairs. -/
def combinations2 {α : Type} : List α → List (α × α)
  | [] => []
  | x :: xs => xs.map (fun y => (x, y)) ++ combinations2 xs

/-- `Graph.build_relations`: add an edge for every unordered pair. -/
def build_relations (g : List ERec) (entity_names : List String) : List ERec :=
  (combinations2 entity_names).foldl (fun h p => add_edge h p.1 p.2) g

/-- Body of the `Graph.build_graph` loop for one parsed record: `none`
models an item without an `"entities"` key.  Entities are lowered,
stripped and deduplicated; fewer than two left means no connection. -/
def build_graph_item (g : List ERec) (item : Option (List String)) : List ERec :=
  match item with
  | none => g
  | some ents =>
    let entity_names := (ents.map (fun e => pyStrip (pyLower e))).dedup
    if entity_names.length < 2 then g
    else build_relations g entity_names

/-- `Graph.build_graph` over the whole parsed-entity sequence. -/
def build_graph (g : List ERec) (parsed_entities : List (Option (List String))) : List ERec :=
  parsed_entities.foldl build_graph_item g

/-- Well-formedness: no two records describe the same unordered pair
(`nx.Graph` cannot hold parallel edges). -/
def noDupEdges (g : List ERec) : Prop :=
  (g.map (fun e => (e.1, e.2.1))).Pairwise (fun p q => ¬ samePair p q)

/-- Sum of all edge weights of the stored graph. -/
def totalWeight (g : List ERec) : ℕ :=
  (g.map (fun e => e.2.2)).sum

/-! ## `src/validation.py` — adaptive fuzzy cutoff (`_choose_cutoff`) -/

/-- `GraphValidator._choose_cutoff`: dynamic fuzzy-match cutoff from the
(normalized) term length and the vocabulary size. -/
def choose_cutoff (term : String) (vocab : ℕ) : ℤ :=
  let t := pyLower (pyStrip term)
  let length := t.length
  let base : ℤ := 85
  let base := if length ≤ 3 then base + 10 else if length ≤ 6 then base + 5 else base
  let base := if 20 ≤ length then base - 10 else base
  let base := if 10000 < vocab then base + 5 else if 1000 < vocab then base + 2 else base
  max 50 (min 98 base)

/-- Length adjustment exactly as the specification words it: +10 for
length ≤ 3, +5 for length 4..6, and additionally −10 for length ≥ 20. -/
def specLengthAdj (len : ℕ) : ℤ :=
  (if len ≤ 3 then 10 else if len ≤ 6 then 5 else 0) + (if 20 ≤ len then -10 else 0)

/-- Vocabulary adjustment as the specification words it: +5 above 10000
labels, +2 above 1000 (and at most 10000). -/
def specVocabAdj (vocab : ℕ) : ℤ :=
  if 10000 < vocab then 5 else if 1000 < vocab then 2 else 0

/-! ## Lemmas about the co-occurrence graph operations -/

theorem samePair_comm (a b : String) (p : String × String) :
    samePair (a, b) p ↔ samePair (b, a) p := by
  unfold samePair; dsimp only; tauto

theorem samePair_symm {p q : String × String} (h : samePair p q) : samePair q p := by
  rcases p with ⟨a, b⟩; rcases q with ⟨c, d⟩
  unfold samePair at *; dsimp only at *
  rcases h with ⟨h1, h2⟩ | ⟨h1, h2⟩
  · exact Or.inl ⟨h1.symm, h2.symm⟩
  · exact Or.inr ⟨h2.symm, h1.symm⟩

theorem samePair_trans {p q r : String × String} (hp : samePair p r) (hq : samePair q r) :
    samePair p q := by
  rcases p with ⟨a, b⟩; rcases q with ⟨c, d⟩; rcases r with ⟨x, y⟩
  unfold samePair at *; dsimp only at *
  rcases hp with ⟨h1, h2⟩ | ⟨h1, h2⟩ <;> rcases hq with ⟨h3, h4⟩ | ⟨h3, h4⟩
  · exact Or.inl ⟨h1.trans h3.symm, h2.trans h4.symm⟩
  · exact Or.inr ⟨h1.trans h4.symm, h2.trans h3.symm⟩
  · exact Or.inr ⟨h1.trans h4.symm, h2.trans h3.symm⟩
  · exact Or.inl ⟨h1.trans h3.symm, h2.trans h4.symm⟩

theorem isEdge_iff {a b : String} {e : ERec} :
    isEdge a b e = true ↔ samePair (a, b) (e.1, e.2.1) := by
  unfold isEdge
  exact decide_eq_true_iff

theorem isEdge_congr {s t a b : String} (h : samePair (s, t) (a, b)) (e : ERec) :
    isEdge s t e = isEdge a b e := by
  unfold isEdge
  rw [decide_eq_decide]
  constructor
  · intro he; exact samePair_trans (samePair_symm h) (samePair_symm he)
  · intro he; exact samePair_trans h (samePair_symm he)

theorem bumpWeight_congr {s t a b : String} (h : samePair (s, t) (a, b)) :
    ∀ g : List ERec, bumpWeight s t g = bumpWeight a b g := by
  intro g
  induction g with
  | nil => rfl
  | cons e tl ih =>
    unfold bumpWeight
    rw [isEdge_congr h, ih]

theorem getWeight_bump (a b : String) :
    ∀ g : List ERec, getWeight (bumpWeight a b g) a b = (getWeight g a b).map (fun w => w + 1) := by
  intro g
  induction g with
  | nil => rfl
  | cons e tl ih =>
    by_cases he : isEdge a b e
    · unfold bumpWeight getWeight
      rw [if_pos he]
      have he2 : isEdge a b (e.1, e.2.1, e.2.2 + 1) = true := he
      simp [List.find?_cons, he, he2]
    · unfold bumpWeight getWeight
      rw [if_neg he]
      unfold getWeight at ih
      simp only [List.find?_cons, he, Bool.false_eq_true, if_neg, cond_false]
      exact ih

theorem getWeight_bump_other {s t a b : String} (h : ¬ samePair (s, t) (a, b)) :
    ∀ g : List ERec, getWeight (bumpWeight s t g) a b = getWeight g a b := by
  intro g
  induction g with
  | nil => rfl
  | cons e tl ih =>
    have hkey : isEdge a b (e.1, e.2.1, e.2.2 + 1) = isEdge a b e := by
      unfold isEdge; rfl
    by_cases hst : isEdge s t e
    · have hab : isEdge a b e = false := by
        cases hb : isEdge a b e
        · rfl
        · exact absurd (samePair_trans (isEdge_iff.mp hst) (isEdge_iff.mp hb)) h
      unfold bumpWeight getWeight
      rw [if_pos hst]
      simp [List.find?_cons, hkey, hab]
    · unfold bumpWeight getWeight
      rw [if_neg hst]
      unfold getWeight at ih
      by_cases hab : isEdge a b e
      · simp [List.find?_cons, hab]
      · simp only [List.find?_cons, hab, Bool.false_eq_true, if_neg, cond_false]
        exact ih

theorem getWeight_none_iff {g : List ERec} {a b : String} :
    getWeight g a b = none ↔ ∀ e ∈ g, isEdge a b e = false := by
  unfold getWeight
  rw [Option.map_eq_none', List.find?_eq_none]
  constructor
  · intro h e he
    cases hb : isEdge a b e
    · rfl
    · exact absurd hb (h e he)
  · intro h e he
    simp [h e he]

theorem getWeight_append_new {g : List ERec} {a b s t : String}
    (hnone : getWeight g a b = none) :
    getWeight (g ++ [(s, t, 1)]) a b =
      if isEdge a b (s, t, 1) then some 1 else none := by
  have hall := getWeight_none_iff.mp hnone
  induction g with
  | nil =>
    unfold getWeight
    cases hb : isEdge a b ((s : String), (t : String), (1 : ℕ)) <;> simp [List.find?_cons, hb]
  | cons e tl ih =>
    have he : isEdge a b e = false := hall e (by simp)
    have ihh := ih (getWeight_none_iff.mpr (fun x hx => hall x (by simp [hx])))
      (fun x hx => hall x (by simp [hx]))
    unfold getWeight at ihh ⊢
    simpa [List.find?_cons, he] using ihh

theorem getWeight_append_skip {g : List ERec} {a b : String} {c : ERec}
    (hc : isEdge a b c = false) :
    getWeight (g ++ [c]) a b = getWeight g a b := by
  unfold getWeight
  simp [List.find?_append, List.find?_cons, hc]

/-- Effect of one `add_edge` call on one queried unordered pair. -/
theorem getWeight_add_edge (g : List ERec) (s t a b : String) :
    getWeight (add_edge g s t) a b =
      if samePair (s, t) (a, b) then some ((getWeight g a b).getD 0 + 1)
      else getWeight g a b := by
  unfold add_edge
  by_cases hp : samePair (s, t) (a, b)
  · rw [if_pos hp]
    rw [show isEdge s t = isEdge a b from funext (isEdge_congr hp)]
    by_cases hf : (g.find? (isEdge a b)).isSome
    · rw [if_pos hf, bumpWeight_congr hp, getWeight_bump]
      obtain ⟨e, he⟩ := Option.isSome_iff_exists.mp hf
      have hw : getWeight g a b = some e.2.2 := by
        unfold getWeight; rw [he]; rfl
      rw [hw]; rfl
    · rw [if_neg hf]
      have hnone : getWeight g a b = none := by
        unfold getWeight
        rw [Option.not_isSome_iff_eq_none.mp hf]
        rfl
      rw [getWeight_append_new hnone, hnone]
      have ht : isEdge a b ((s : String), (t : String), (1 : ℕ)) = true :=
        isEdge_iff.mpr (samePair_symm hp)
      rw [ht]
      rfl
  · rw [if_neg hp]
    by_cases hf : (g.find? (isEdge s t)).isSome
    · rw [if_pos hf]
      exact getWeight_bump_other hp g
    · rw [if_neg hf]
      have hc : isEdge a b ((s : String), (t : String), (1 : ℕ)) = false := by
        cases hb : isEdge a b ((s : String), (t : String), (1 : ℕ))
        · rfl
        · exact absurd (samePair_symm (isEdge_iff.mp hb)) hp
      exact getWeight_append_skip hc

/-- Accumulated weight after `c` further hits on an unordered pair whose
current stored weight is `o` (`none` = edge absent). -/
def addCount (o : Option ℕ) (c : ℕ) : Option ℕ :=
  if c = 0 then o else some (o.getD 0 + c)

/-- Replaying a list of `add_edge` calls: the stored weight of any pair
grows by exactly the number of calls that target it. -/
theorem getWeight_foldl (a b : String) :
    ∀ (calls : List (String × String)) (g : List ERec),
      getWeight (calls.foldl (fun h p => add_edge h p.1 p.2) g) a b =
        addCount (getWeight g a b) (calls.countP (fun p => decide (samePair p (a, b)))) := by
  intro calls
  induction calls with
  | nil => intro g; simp [addCount]
  | cons p rest ih =>
    intro g
    simp only [List.foldl_cons, List.countP_cons]
    rw [ih, getWeight_add_edge]
    by_cases hp : samePair (p.1, p.2) (a, b)
    · have hp2 : samePair p (a, b) := by
        rcases p with ⟨p1, p2⟩; exact hp
      rw [if_pos hp]
      simp only [decide_eq_true_eq, hp2, if_true]
      unfold addCount
      rcases hw : getWeight g a b with _ | w <;>
        by_cases hc : rest.countP (fun p => decide (samePair p (a, b))) = 0 <;>
        simp [hc, hw] <;> omega
    · have hp2 : ¬ samePair p (a, b) := by
        rcases p with ⟨p1, p2⟩; exact hp
      rw [if_neg hp]
      simp [hp2]

theorem bumpWeight_map_fst (a b : String) (g : List ERec) :
    (bumpWeight a b g).map (fun e => (e.1, e.2.1)) = g.map (fun e => (e.1, e.2.1)) := by
  induction g with
  | nil => rfl
  | cons e tl ih =>
    unfold bumpWeight
    by_cases he : isEdge a b e <;> simp [he, ih]

theorem bumpWeight_length (a b : String) (g : List ERec) :
    (bumpWeight a b g).length = g.length := by
  have h := congrArg List.length (bumpWeight_map_fst a b g)
  simpa using h

/-- `add_edge` never introduces a second record for an unordered pair. -/
theorem noDupEdges_add_edge {g : List ERec} (s t : String) (h : noDupEdges g) :
    noDupEdges (add_edge g s t) := by
  unfold add_edge
  by_cases hf : (g.find? (isEdge s t)).isSome
  · rw [if_pos hf]
    unfold noDupEdges at h ⊢
    rw [bumpWeight_map_fst]
    exact h
  · rw [if_neg hf]
    unfold noDupEdges at h ⊢
    rw [List.map_append, List.pairwise_append]
    refine ⟨h, by simp, ?_⟩
    intro p hp q hq
    simp only [List.map_cons, List.map_nil, List.mem_singleton] at hq
    subst hq
    simp only [List.mem_map] at hp
    obtain ⟨e, he, hpe⟩ := hp
    have hnone := Option.not_isSome_iff_eq_none.mp hf
    have hfalse : isEdge s t e = false := by
      have := List.find?_eq_none.mp hnone e he
      cases hb : isEdge s t e
      · rfl
      · exact absurd hb this
    intro hcon
    subst hpe
    have : isEdge s t e = true := isEdge_iff.mpr (samePair_symm hcon)
    rw [this] at hfalse
    simp at hfalse

theorem totalWeight_append (g : List ERec) (c : ERec) :
    totalWeight (g ++ [c]) = totalWeight g + c.2.2 := by
  unfold totalWeight
  simp

theorem totalWeight_bump {g : List ERec} {s t : String}
    (hf : (g.find? (isEdge s t)).isSome) :
    totalWeight (bumpWeight s t g) = totalWeight g + 1 := by
  induction g with
  | nil => simp at hf
  | cons e tl ih =>
    unfold bumpWeight
    by_cases he : isEdge s t e
    · rw [if_pos he]
      unfold totalWeight
      simp
      omega
    · rw [if_neg he]
      unfold totalWeight at ih ⊢
      have he' : isEdge s t e = false := by simpa using he
      have hf2 : (tl.find? (isEdge s t)).isSome := by
        simpa [List.find?_cons, he'] using hf
      simp only [List.map_cons, List.sum_cons]
      rw [ih hf2]
      omega

/-- Every `add_edge` call adds exactly 1 to the total stored weight. -/
theorem totalWeight_add_edge (g : List ERec) (s t : String) :
    totalWeight (add_edge g s t) = totalWeight g + 1 := by
  unfold add_edge
  by_cases hf : (g.find? (isEdge s t)).isSome
  · rw [if_pos hf]
    exact totalWeight_bump hf
  · rw [if_neg hf]
    exact totalWeight_append g (s, t, 1)

/-- C5: `add_edge` creates an absent unordered edge with weight exactly 1;
called on an existing edge it increments the weight by exactly 1 and keeps
the record count (no parallel edge); well-formedness is preserved; and the
weight of a pair after any call sequence from the empty graph equals the
number of `add_edge` calls for that unordered pair (absent iff zero). -/
theorem add_edge_weight_spec (g : List ERec) (a b : String) :
    (getWeight g a b = none →
      add_edge g a b = g ++ [(a, b, 1)] ∧ getWeight (add_edge g a b) a b = some 1) ∧
    (∀ w, getWeight g a b = some w →
      getWeight (add_edge g a b) a b = some (w + 1) ∧
      (add_edge g a b).length = g.length) ∧
    (noDupEdges g → noDupEdges (add_edge g a b)) ∧
    (∀ calls : List (String × String),
      getWeight (calls.foldl (fun h p => add_edge h p.1 p.2) []) a b =
        if calls.countP (fun p => decide (samePair p (a, b))) = 0 then none
        else some (calls.countP (fun p => decide (samePair p (a, b))))) := by
  have hself : samePair (a, b) (a, b) := Or.inl ⟨rfl, rfl⟩
  refine ⟨?_, ?_, ?_, ?_⟩
  · intro h
    have hf : g.find? (isEdge a b) = none := by
      unfold getWeight at h
      exact Option.map_eq_none'.mp h
    constructor
    · unfold add_edge
      rw [hf]
      rfl
    · rw [getWeight_add_edge, if_pos hself, h]
      rfl
  · intro w h
    constructor
    · rw [getWeight_add_edge, if_pos hself, h]
      rfl
    · have hf : (g.find? (isEdge a b)).isSome := by
        unfold getWeight at h
        rcases hx : g.find? (isEdge a b) with _ | e
        · rw [hx] at h; exact absurd h (by simp)
        · rfl
      unfold add_edge
      rw [if_pos hf]
      exact bumpWeight_length a b g
  · exact noDupEdges_add_edge a b
  · intro calls
    rw [getWeight_foldl]
    have h0 : getWeight [] a b = none := rfl
    rw [h0]
    unfold addCount
    by_cases hc : calls.countP (fun p => decide (samePair p (a, b))) = 0 <;> simp [hc]

/-- Witness for `add_edge_weight_spec` at concrete inputs. -/
theorem add_edge_weight_spec_witness :
    (add_edge [] "a" "b" = [("a", "b", 1)] ∧
      getWeight (add_edge [] "a" "b") "a" "b" = some 1) ∧
    (getWeight (add_edge [("a", "b", 3)] "a" "b") "a" "b" = some 4 ∧
      (add_edge [("a", "b", 3)] "a" "b").length = 1) ∧
    noDupEdges (add_edge [("a", "b", 3)] "a" "b") ∧
    getWeight ([("a", "b"), ("b", "a"), ("a", "c")].foldl
        (fun h p => add_edge h p.1 p.2) []) "a" "b" = some 2 := by
  refine ⟨(add_edge_weight_spec [] "a" "b").1 rfl, ?_, ?_, ?_⟩
  · exact (add_edge_weight_spec [("a", "b", 3)] "a" "b").2.1 3 rfl
  · exact (add_edge_weight_spec [("a", "b", 3)] "a" "b").2.2.1
      (by unfold noDupEdges; simp)
  · rw [(add_edge_weight_spec [] "a" "b").2.2.2 [("a", "b"), ("b", "a"), ("a", "c")]]
    decide

theorem totalWeight_foldl_pairs (ps : List (String × String)) :
    ∀ g : List ERec,
      totalWeight (ps.foldl (fun h p => add_edge h p.1 p.2) g) = totalWeight g + ps.length := by
  induction ps with
  | nil => intro g; simp
  | cons p rest ih =>
    intro g
    simp only [List.foldl_cons, List.length_cons]
    rw [ih, totalWeight_add_edge]
    omega

theorem noDupEdges_foldl_pairs (ps : List (String × String)) :
    ∀ g : List ERec, noDupEdges g → noDupEdges (ps.foldl (fun h p => add_edge h p.1 p.2) g) := by
  induction ps with
  | nil => intro g h; exact h
  | cons p rest ih =>
    intro g h
    exact ih (add_edge g p.1 p.2) (noDupEdges_add_edge p.1 p.2 h)

theorem combinations2_length {α : Type} (l : List α) :
    (combinations2 l).length = l.length.choose 2 := by
  induction l with
  | nil => rfl
  | cons x xs ih =>
    unfold combinations2
    rw [List.length_append, List.length_map, ih, List.length_cons,
      Nat.choose_succ_succ, Nat.choose_one_right]

/-- C4: one entity set (`build_graph` loop body): fewer than 2 distinct
normalized entities adds nothing; `n ≥ 2` distinct entities process
exactly `C(n, 2)` unordered pairs — each adding exactly 1 somewhere, so
the graph's total weight grows by exactly `C(n, 2)` — and duplicate
records for an unordered pair never appear. -/
theorem build_graph_item_spec (g : List ERec) (ents : List String) :
    (((ents.map (fun e => pyStrip (pyLower e))).dedup).length < 2 →
      build_graph_item g (some ents) = g) ∧
    (2 ≤ ((ents.map (fun e => pyStrip (pyLower e))).dedup).length →
      (combinations2 ((ents.map (fun e => pyStrip (pyLower e))).dedup)).length
          = (((ents.map (fun e => pyStrip (pyLower e))).dedup).length).choose 2 ∧
      totalWeight (build_graph_item g (some ents))
          = totalWeight g + (((ents.map (fun e => pyStrip (pyLower e))).dedup).length).choose 2) ∧
    (noDupEdges g → noDupEdges (build_graph_item g (some ents))) := by
  refine ⟨?_, ?_, ?_⟩
  · intro h
    unfold build_graph_item
    dsimp only
    rw [if_pos h]
  · intro h
    refine ⟨combinations2_length _, ?_⟩
    unfold build_graph_item
    dsimp only
    rw [if_neg (by omega)]
    unfold build_relations
    rw [totalWeight_foldl_pairs, combinations2_length]
  · intro h
    unfold build_graph_item
    dsimp only
    by_cases hlt : ((ents.map (fun e => pyStrip (pyLower e))).dedup).length < 2
    · rw [if_pos hlt]; exact h
    · rw [if_neg hlt]
      exact noDupEdges_foldl_pairs _ g h

/-- Witness for `build_graph_item_spec` at concrete inputs. -/
theorem build_graph_item_spec_witness :
    build_graph_item [] (some ["brain"]) = [] ∧
    totalWeight (build_graph_item [] (some ["Neuron", "cortex", "neuron ", "brain"])) = 3 ∧
    noDupEdges (build_graph_item [] (some ["Neuron", "cortex", "neuron ", "brain"])) := by
  refine ⟨(build_graph_item_spec [] ["brain"]).1 (by decide), ?_, ?_⟩
  · rw [((build_graph_item_spec [] ["Neuron", "cortex", "neuron ", "brain"]).2.1 (by decide)).2]
    decide
  · exact (build_graph_item_spec [] ["Neuron", "cortex", "neuron ", "brain"]).2.2
      (by unfold noDupEdges; simp)

/-- C3: the adaptive fuzzy cutoff equals `clamp(85 + lengthAdj + vocabAdj,
50, 98)` with the adjustments as specified, and always lies in [50, 98]. -/
theorem choose_cutoff_spec (term : String) (vocab : ℕ) :
    choose_cutoff term vocab
        = max 50 (min 98 (85 + specLengthAdj (pyLower (pyStrip term)).length + specVocabAdj vocab)) ∧
    50 ≤ choose_cutoff term vocab ∧ choose_cutoff term vocab ≤ 98 := by
  refine ⟨?_, ?_, ?_⟩
  · unfold choose_cutoff specLengthAdj specVocabAdj
    dsimp only
    split_ifs <;> decide
  · unfold choose_cutoff
    dsimp only
    exact le_max_left _ _
  · unfold choose_cutoff
    dsimp only
    exact max_le (by norm_num) (min_le_left _ _)

/-! ## `src/validation.py` — ancestor BFS (`get_ancestors_dist`) and
semantic distance (`_calculate_semantic_distance`)

Concepts of the loaded ontologies are indexed by `Fin n`.  `isA c` is
the list `c.is_a` of direct superclasses; `hasName c` models
`hasattr(p, 'name')` (a real entity rather than a restriction). -/

structure Onto (n : ℕ) where
  isA : Fin n → List (Fin n)
  hasName : Fin n → Bool

/-- Inner `for p in parents` loop of `get_ancestors_dist`: record each
named, not yet recorded parent with hop count `cd + 1` and enqueue it. -/
def scanParents {n : ℕ} (O : Onto n) (cd : ℕ) (parents : List (Fin n))
    (st : List (Fin n × ℕ) × List (Fin n)) : List (Fin n × ℕ) × List (Fin n) :=
  parents.foldl
    (fun st p =>
      if O.hasName p ∧ lookupD st.1 p = none then (st.1 ++ [(p, cd + 1)], st.2 ++ [p])
      else st)
    st

/-- The `while idx < len(queue)` loop of `get_ancestors_dist`, with the
queue represented by its unprocessed suffix `queue[idx:]` and explicit
fuel (the loop has no fuel; `get_ancestors_dist_terminates` shows fuel
`n` always drains the queue, so the function below with fuel `n` is the
loop's exact behaviour). -/
def bfs {n : ℕ} (O : Onto n) : ℕ → List (Fin n) → List (Fin n × ℕ) → List (Fin n × ℕ)
  | 0, _, dists => dists
  | _ + 1, [], dists => dists
  | fuel + 1, curr :: rest, dists =>
    let cd := (lookupD dists curr).getD 0
    let st := scanParents O cd (O.isA curr) (dists, [])
    bfs O fuel (rest ++ st.2) st.1

/-- `get_ancestors_dist(start_node)`: ancestor → hop-count map, starting
from `{start_node: 0}` (the per-node memo cache is omitted — it only
avoids recomputation). -/
def get_ancestors_dist {n : ℕ} (O : Onto n) (start_node : Fin n) : List (Fin n × ℕ) :=
  bfs O n [start_node] [(start_node, 0)]

/-- The `min_dist` loop of `_calculate_semantic_distance`; `none` is
`float('inf')`. -/
def minFold {n : ℕ} (dists_a dists_b : List (Fin n × ℕ)) (common : List (Fin n)) : Option ℕ :=
  common.foldl
    (fun m anc =>
      let d := (lookupD dists_a anc).getD 0 + (lookupD dists_b anc).getD 0
      match m with
      | none => some d
      | some m0 => if d < m0 then some d else some m0)
    none

/-- `_calculate_semantic_distance` (the pair cache is omitted): 0 on
identical concepts, else minimum combined hop count over the common
ancestors, `none` (infinity) when there is none. -/
def semanticDistance {n : ℕ} (O : Onto n) (cls_a cls_b : Fin n) : Option ℕ :=
  if cls_a = cls_b then some 0
  else
    let dists_a := get_ancestors_dist O cls_a
    let dists_b := get_ancestors_dist O cls_b
    let common := (dists_a.map Prod.fst).filter (fun c => (lookupD dists_b c).isSome)
    if common.isEmpty then none
    else minFold dists_a dists_b common

/-- `c` appears in the ancestor-distance map of `x` (reflexive is-a
closure membership as the traversal computes it). -/
def isAncestor {n : ℕ} (O : Onto n) (x c : Fin n) : Prop :=
  c ∈ (get_ancestors_dist O x).map Prod.fst

instance {n : ℕ} (O : Onto n) (x c : Fin n) : Decidable (isAncestor O x c) := by
  unfold isAncestor; infer_instance

/-- Recorded hop count from `x` up to its ancestor `c`. -/
def ancestorHops {n : ℕ} (O : Onto n) (x c : Fin n) : ℕ :=
  (lookupD (get_ancestors_dist O x) c).getD 0

/-! ## Lemmas about `lookupD` and the BFS -/

theorem lookupD_append {α β : Type} [DecidableEq α] (l₁ l₂ : List (α × β)) (a : α) :
    lookupD (l₁ ++ l₂) a = (lookupD l₁ a).or (lookupD l₂ a) := by
  induction l₁ with
  | nil => simp [lookupD]
  | cons kv t ih =>
    rcases kv with ⟨k, v⟩
    by_cases h : k = a <;> simp [lookupD, h, ih]

theorem lookupD_eq_none_iff {α β : Type} [DecidableEq α] (l : List (α × β)) (a : α) :
    lookupD l a = none ↔ a ∉ l.map Prod.fst := by
  induction l with
  | nil => simp [lookupD]
  | cons kv t ih =>
    rcases kv with ⟨k, v⟩
    by_cases h : k = a
    · subst h
      simp [lookupD]
    · rw [show lookupD ((k, v) :: t) a = lookupD t a from by simp [lookupD, h], ih]
      constructor
      · intro hn hmem
        rw [List.map_cons] at hmem
        rcases List.mem_cons.mp hmem with h1 | h1
        · exact h h1.symm
        · exact hn h1
      · intro hn hmem
        exact hn (by simp only [List.map_cons, List.mem_cons]; exact Or.inr hmem)

theorem lookupD_isSome_iff {α β : Type} [DecidableEq α] (l : List (α × β)) (a : α) :
    (lookupD l a).isSome = true ↔ a ∈ l.map Prod.fst := by
  rcases hx : lookupD l a with _ | v
  · simp only [Option.isSome_none, Bool.false_eq_true, false_iff]
    exact (lookupD_eq_none_iff l a).mp hx
  · simp only [Option.isSome_some, true_iff]
    by_contra hmem
    exact absurd ((lookupD_eq_none_iff l a).mpr hmem) (by rw [hx]; simp)

/-- Shape of one parent scan: it appends a block of new, pairwise
distinct, named, previously unrecorded concepts to both components. -/
theorem scanParents_spec {n : ℕ} (O : Onto n) (cd : ℕ) (parents : List (Fin n)) :
    ∀ dists acc, ∃ new : List (Fin n),
      scanParents O cd parents (dists, acc)
          = (dists ++ new.map (fun p => (p, cd + 1)), acc ++ new) ∧
      new.Nodup ∧
      ∀ q ∈ new, lookupD dists q = none ∧ O.hasName q = true := by
  induction parents with
  | nil =>
    intro dists acc
    exact ⟨[], by simp [scanParents], by simp, by simp⟩
  | cons p ps ih =>
    intro dists acc
    unfold scanParents
    simp only [List.foldl_cons]
    by_cases hc : O.hasName p ∧ lookupD dists p = none
    · rw [if_pos hc]
      obtain ⟨new, heq, hnd, hmem⟩ := ih (dists ++ [(p, cd + 1)]) (acc ++ [p])
      refine ⟨p :: new, ?_, ?_, ?_⟩
      · unfold scanParents at heq
        rw [heq]
        simp
      · refine List.nodup_cons.mpr ⟨?_, hnd⟩
        intro hp
        have := (hmem p hp).1
        rw [lookupD_append] at this
        rcases Option.or_eq_none.mp this with ⟨_, h2⟩
        simp [lookupD] at h2
      · intro q hq
        rcases List.mem_cons.mp hq with hq | hq
        · subst hq
          exact ⟨hc.2, hc.1⟩
        · have := hmem q hq
          rw [lookupD_append] at this
          exact ⟨(Option.or_eq_none.mp this.1).1, this.2⟩
    · rw [if_neg hc]
      exact ih dists acc

/-- One unfolding of the BFS loop body. -/
theorem bfs_step {n : ℕ} (O : Onto n) (fuel : ℕ) (curr : Fin n) (rest : List (Fin n))
    (dists : List (Fin n × ℕ)) :
    bfs O (fuel + 1) (curr :: rest) dists =
      bfs O fuel
        (rest ++ (scanParents O ((lookupD dists curr).getD 0) (O.isA curr) (dists, [])).2)
        (scanParents O ((lookupD dists curr).getD 0) (O.isA curr) (dists, [])).1 := rfl

/-- Master BFS invariant: with distinct recorded keys covering the queue
and enough fuel (`|queue| + n ≤ fuel + |dists|`), the traversal keeps the
keys distinct and one more unit of fuel changes nothing (the queue is
drained within the given fuel). -/
theorem bfs_main {n : ℕ} (O : Onto n) :
    ∀ (fuel : ℕ) (queue : List (Fin n)) (dists : List (Fin n × ℕ)),
      (dists.map Prod.fst).Nodup →
      (∀ q ∈ queue, q ∈ dists.map Prod.fst) →
      queue.length + n ≤ fuel + dists.length →
      ((bfs O fuel queue dists).map Prod.fst).Nodup ∧
      bfs O (fuel + 1) queue dists = bfs O fuel queue dists := by
  intro fuel
  induction fuel with
  | zero =>
    intro queue dists hnd hsub hlen
    have hdlen : dists.length ≤ n := by
      have h1 := List.Nodup.length_le_card hnd
      simpa [Fintype.card_fin] using h1
    have hq : queue = [] := by
      rw [← List.length_eq_zero]
      omega
    subst hq
    exact ⟨hnd, rfl⟩
  | succ fuel ih =>
    intro queue dists hnd hsub hlen
    cases queue with
    | nil => exact ⟨hnd, rfl⟩
    | cons curr rest =>
      simp only [bfs_step]
      obtain ⟨new, heq, hndnew, hmemnew⟩ :=
        scanParents_spec O ((lookupD dists curr).getD 0) (O.isA curr) dists []
      rw [heq]
      dsimp only
      have hkeys : ((dists ++ new.map fun p => (p, (lookupD dists curr).getD 0 + 1)).map
          Prod.fst) = dists.map Prod.fst ++ new := by
        simp [Function.comp_def]
      apply ih
      · rw [hkeys]
        refine List.Nodup.append hnd hndnew ?_
        intro a ha hb
        exact (lookupD_eq_none_iff dists a).mp (hmemnew a hb).1 ha
      · intro q hq
        rw [hkeys]
        rcases List.mem_append.mp hq with h1 | h1
        · exact List.mem_append.mpr (Or.inl (hsub q (List.mem_cons.mpr (Or.inr h1))))
        · exact List.mem_append.mpr (Or.inr (by simpa using h1))
      · have hl1 : (rest ++ ([] ++ new)).length = rest.length + new.length := by simp
        have hl2 : (dists ++ new.map fun p => (p, (lookupD dists curr).getD 0 + 1)).length
            = dists.length + new.length := by simp
        rw [hl1, hl2]
        have := hlen
        simp only [List.length_cons] at this
        omega

/-- Any fuel beyond `n` computes the same ancestor map as fuel `n`. -/
theorem bfs_stable {n : ℕ} (O : Onto n) (s : Fin n) :
    ∀ extra : ℕ, bfs O (n + extra) [s] [(s, 0)] = bfs O n [s] [(s, 0)] := by
  intro extra
  induction extra with
  | zero => rfl
  | succ e ihe =>
    have h := (bfs_main O (n + e) [s] [(s, 0)] (by simp) (by simp)
      (by simp [Nat.add_comm])).2
    calc bfs O (n + (e + 1)) [s] [(s, 0)]
        = bfs O ((n + e) + 1) [s] [(s, 0)] := rfl
      _ = bfs O (n + e) [s] [(s, 0)] := h
      _ = bfs O n [s] [(s, 0)] := ihe

/-- C8: the ancestor BFS of the semantic-distance operation terminates
for every is-a relation, cyclic ones included: fuel `n` (the size of the
concept universe) already drains the queue, so any extra fuel computes
the same map; every ancestor is recorded with a distance at most once
(keys are pairwise distinct, nothing is re-enqueued after being
recorded); and the traversal visits at most `n` concepts. -/
theorem get_ancestors_dist_terminates {n : ℕ} (O : Onto n) (s : Fin n) :
    (∀ extra : ℕ, bfs O (n + extra) [s] [(s, 0)] = get_ancestors_dist O s) ∧
    ((get_ancestors_dist O s).map Prod.fst).Nodup ∧
    (get_ancestors_dist O s).length ≤ n := by
  have hnd : ((get_ancestors_dist O s).map Prod.fst).Nodup :=
    (bfs_main O n [s] [(s, 0)] (by simp) (by simp) (by simp [Nat.add_comm])).1
  refine ⟨bfs_stable O s, hnd, ?_⟩
  have h1 := List.Nodup.length_le_card hnd
  simpa [Fintype.card_fin] using h1

/-- Minimum fold, starting from a finite accumulator. -/
theorem minFold_aux {n : ℕ} (dists_a dists_b : List (Fin n × ℕ)) :
    ∀ (l : List (Fin n)) (m0 : ℕ),
      ∃ m, l.foldl
          (fun m anc =>
            let d := (lookupD dists_a anc).getD 0 + (lookupD dists_b anc).getD 0
            match m with
            | none => some d
            | some x => if d < x then some d else some x)
          (some m0) = some m ∧
        m ≤ m0 ∧
        (m = m0 ∨ ∃ c ∈ l, (lookupD dists_a c).getD 0 + (lookupD dists_b c).getD 0 = m) ∧
        ∀ c ∈ l, m ≤ (lookupD dists_a c).getD 0 + (lookupD dists_b c).getD 0 := by
  intro l
  induction l with
  | nil =>
    intro m0
    exact ⟨m0, rfl, le_refl m0, Or.inl rfl, by simp⟩
  | cons c cs ih =>
    intro m0
    simp only [List.foldl_cons]
    by_cases hd : (lookupD dists_a c).getD 0 + (lookupD dists_b c).getD 0 < m0
    · rw [if_pos hd]
      obtain ⟨m, heq, hle, hor, hall⟩ :=
        ih ((lookupD dists_a c).getD 0 + (lookupD dists_b c).getD 0)
      refine ⟨m, heq, le_of_lt (lt_of_le_of_lt hle hd), ?_, ?_⟩
      · refine Or.inr ?_
        rcases hor with hor | ⟨c2, hc2, hv⟩
        · exact ⟨c, List.mem_cons_self c cs, hor.symm⟩
        · exact ⟨c2, List.mem_cons.mpr (Or.inr hc2), hv⟩
      · intro x hx
        rcases List.mem_cons.mp hx with hx | hx
        · subst hx; exact hle
        · exact hall x hx
    · rw [if_neg hd]
      obtain ⟨m, heq, hle, hor, hall⟩ := ih m0
      refine ⟨m, heq, hle, ?_, ?_⟩
      · rcases hor with hor | ⟨c2, hc2, hv⟩
        · exact Or.inl hor
        · exact Or.inr ⟨c2, List.mem_cons.mpr (Or.inr hc2), hv⟩
      · intro x hx
        rcases List.mem_cons.mp hx with hx | hx
        · subst hx
          exact le_trans hle (le_of_not_lt hd)
        · exact hall x hx

/-- The common-ancestor minimisation returns the minimum combined hop
count over a non-empty candidate list. -/
theorem minFold_spec {n : ℕ} (dists_a dists_b : List (Fin n × ℕ))
    (common : List (Fin n)) (hne : common ≠ []) :
    ∃ m, minFold dists_a dists_b common = some m ∧
      (∃ c ∈ common, (lookupD dists_a c).getD 0 + (lookupD dists_b c).getD 0 = m) ∧
      ∀ c ∈ common, m ≤ (lookupD dists_a c).getD 0 + (lookupD dists_b c).getD 0 := by
  cases common with
  | nil => exact absurd rfl hne
  | cons c cs =>
    unfold minFold
    simp only [List.foldl_cons]
    obtain ⟨m, heq, hle, hor, hall⟩ :=
      minFold_aux dists_a dists_b cs ((lookupD dists_a c).getD 0 + (lookupD dists_b c).getD 0)
    refine ⟨m, heq, ?_, ?_⟩
    · rcases hor with hor | ⟨c2, hc2, hv⟩
      · exact ⟨c, List.mem_cons_self c cs, hor.symm⟩
      · exact ⟨c2, List.mem_cons.mpr (Or.inr hc2), hv⟩
    · intro x hx
      rcases List.mem_cons.mp hx with hx | hx
      · subst hx; exact hle
      · exact hall x hx

/-- C1: the semantic distance is 0 on identical concepts; `none`
(infinity) exactly when the two reflexive ancestor closures do not
intersect; and otherwise the minimum over all common ancestors of the
sum of the recorded hop counts. -/
theorem semanticDistance_spec {n : ℕ} (O : Onto n) (a b : Fin n) :
    (a = b → semanticDistance O a b = some 0) ∧
    (a ≠ b →
      ((∀ c, ¬ (isAncestor O a c ∧ isAncestor O b c)) → semanticDistance O a b = none) ∧
      (∀ c0, isAncestor O a c0 → isAncestor O b c0 →
        ∃ d, semanticDistance O a b = some d ∧
          (∃ c, isAncestor O a c ∧ isAncestor O b c ∧
            d = ancestorHops O a c + ancestorHops O b c) ∧
          (∀ c, isAncestor O a c → isAncestor O b c →
            d ≤ ancestorHops O a c + ancestorHops O b c))) := by
  constructor
  · intro h
    unfold semanticDistance
    rw [if_pos h]
  · intro hab
    have hmem : ∀ c, c ∈ ((get_ancestors_dist O a).map Prod.fst).filter
        (fun c => (lookupD (get_ancestors_dist O b) c).isSome) ↔
        (isAncestor O a c ∧ isAncestor O b c) := by
      intro c
      rw [List.mem_filter]
      unfold isAncestor
      rw [lookupD_isSome_iff]
    constructor
    · intro hnone
      unfold semanticDistance
      rw [if_neg hab]
      dsimp only
      have hempty : ((get_ancestors_dist O a).map Prod.fst).filter
          (fun c => (lookupD (get_ancestors_dist O b) c).isSome) = [] := by
        rw [List.filter_eq_nil_iff]
        intro c hc hp
        exact hnone c ((hmem c).mp (List.mem_filter.mpr ⟨hc, hp⟩))
      rw [hempty]
      rfl
    · intro c0 h1 h2
      have hc0 := (hmem c0).mpr ⟨h1, h2⟩
      have hne : ((get_ancestors_dist O a).map Prod.fst).filter
          (fun c => (lookupD (get_ancestors_dist O b) c).isSome) ≠ [] :=
        List.ne_nil_of_mem hc0
      unfold semanticDistance
      rw [if_neg hab]
      dsimp only
      rw [if_neg (by rw [List.isEmpty_iff]; exact hne)]
      obtain ⟨m, heq, hex, hmin⟩ :=
        minFold_spec (get_ancestors_dist O a) (get_ancestors_dist O b) _ hne
      refine ⟨m, heq, ?_, ?_⟩
      · obtain ⟨c, hc, hv⟩ := hex
        obtain ⟨ha, hb⟩ := (hmem c).mp hc
        exact ⟨c, ha, hb, hv.symm⟩
      · intro c ha hb
        exact hmin c ((hmem c).mpr ⟨ha, hb⟩)

/-- Small concrete ontology: concepts 0 and 1 both have parent 2. -/
def sampleOnto : Onto 3 where
  isA := fun i => if i = 2 then [] else [2]
  hasName := fun _ => true

/-- Concrete ontology with no is-a edges at all. -/
def sampleOntoDisc : Onto 2 where
  isA := fun _ => []
  hasName := fun _ => true

/-- Witness for `semanticDistance_spec` at concrete inputs. -/
theorem semanticDistance_spec_witness :
    semanticDistance sampleOnto 0 0 = some 0 ∧
    semanticDistance sampleOntoDisc 0 1 = none ∧
    ∃ d, semanticDistance sampleOnto 0 1 = some d ∧
      (∃ c, isAncestor sampleOnto 0 c ∧ isAncestor sampleOnto 1 c ∧
        d = ancestorHops sampleOnto 0 c + ancestorHops sampleOnto 1 c) ∧
      (∀ c, isAncestor sampleOnto 0 c → isAncestor sampleOnto 1 c →
        d ≤ ancestorHops sampleOnto 0 c + ancestorHops sampleOnto 1 c) :=
  ⟨(semanticDistance_spec sampleOnto 0 0).1 rfl,
   ((semanticDistance_spec sampleOntoDisc 0 1).2 (by decide)).1 (by decide),
   ((semanticDistance_spec sampleOnto 0 1).2 (by decide)).2 2 (by decide) (by decide)⟩

/-! ## `src/validation.py` — GraphValidator state and term/concept
resolution

External collaborators appear as oracle fields: owlready2 search on each
loaded ontology handle, the loader's label→classes index, and rapidfuzz
(`process.extractOne` with a score cutoff; `process.extract` with
`limit=2`, best candidate first).  The rapidfuzz branch of the code is
modelled (`_USE_RAPIDFUZZ = True`). -/

structure OntoHandle (n : ℕ) where
  searchLabel : String → Option (Fin n)
  searchIri : String → Option (Fin n)

structure Validator (n : ℕ) where
  onto : Onto n
  ontologies : List (OntoHandle n)
  known_terms : List String
  get_classes_by_label : String → List (Fin n)
  extractOne : String → ℤ → Option (String × ℚ)
  extract2 : String → List (String × ℚ)

inductive MatchKind
  | exact
  | fuzzy
  | noMatch
deriving DecidableEq

structure TermResult where
  valid : Bool
  label : Option String
  kind : MatchKind
  score : Option ℚ
deriving DecidableEq

/-- `GraphValidator.validate_term`: exact vocabulary hit, else fuzzy
match above the adaptive cutoff, else invalid. -/
def validate_term {n : ℕ} (V : Validator n) (term : String) : TermResult :=
  let term_lower := pyLower term
  if term_lower ∈ V.known_terms then
    ⟨true, some term_lower, MatchKind.exact, none⟩
  else
    let cutoff := choose_cutoff term_lower V.known_terms.length
    if V.known_terms ≠ [] then
      match V.extractOne term_lower cutoff with
      | some (lbl, sc) => ⟨true, some lbl, MatchKind.fuzzy, some sc⟩
      | none => ⟨false, none, MatchKind.noMatch, none⟩
    else ⟨false, none, MatchKind.noMatch, none⟩

/-- Per-ontology structural search loop of `_get_ontology_class`:
`onto.search(label=term_lower)` then `onto.search(iri=f"*{term}")`,
first hit wins. -/
def searchOntologies {n : ℕ} (ontologies : List (OntoHandle n))
    (term_lower term : String) : Option (Fin n) :=
  match ontologies with
  | [] => none
  | o :: rest =>
    match o.searchLabel term_lower with
    | some c => some c
    | none =>
      match o.searchIri term with
      | some c => some c
      | none => searchOntologies rest term_lower term

/-- Final fallback of `_get_ontology_class`: label search for the fuzzy
`match_label` on each ontology. -/
def searchLabelOnly {n : ℕ} (ontologies : List (OntoHandle n)) (lbl : String) :
    Option (Fin n) :=
  match ontologies with
  | [] => none
  | o :: rest =>
    match o.searchLabel lbl with
    | some c => some c
    | none => searchLabelOnly rest lbl

/-- Acceptance test of the fuzzy fallback: best score clears the cutoff,
or it beats the runner-up by ≥ 10 while within 5 points of the cutoff. -/
def fuzzyAccept (cutoff : ℤ) (best_score : ℚ) (second_score : Option ℚ) : Bool :=
  decide (best_score ≥ (cutoff : ℚ)) ||
    (match second_score with
     | some s2 => decide (best_score - s2 ≥ 10) && decide (best_score ≥ (cutoff : ℚ) - 5)
     | none => false)

/-- `GraphValidator._get_ontology_class`: label-index lookup, then
ontology-native search, then the margin-based fuzzy fallback (accepted
label resolved through the index, with a final label search), else
`none`. -/
def get_ontology_class {n : ℕ} (V : Validator n) (term : String) : Option (Fin n) :=
  let term_lower := pyLower term
  match V.get_classes_by_label term_lower with
  | c :: _ => some c
  | [] =>
    match searchOntologies V.ontologies term_lower term with
    | some c => some c
    | none =>
      let cutoff := choose_cutoff term_lower V.known_terms.length
      if V.known_terms ≠ [] then
        match V.extract2 term_lower with
        | [] => none
        | (best_label, best_score) :: rest =>
          if fuzzyAccept cutoff best_score (rest.head?.map Prod.snd) then
            match V.get_classes_by_label best_label with
            | c :: _ => some c
            | [] => searchLabelOnly V.ontologies best_label
          else none
      else none

/-! ## `src/validation.py` — edge and graph validation -/

inductive EdgeStatus
  | strong
  | weak
  | disconnected
  | unknown_nodes
deriving DecidableEq

/-- One edge detail record `(u, v, status, distance)`; the distance is
`none` when an endpoint did not resolve (Python `None`), `some none`
for infinity, `some (some d)` for a finite distance. -/
abbrev EdgeDetail := String × String × EdgeStatus × Option (Option ℕ)

structure EdgeAcc where
  valid_rels : ℕ
  weak_rels : ℕ
  total_dist : ℕ
  count_dist : ℕ
  details : List EdgeDetail

/-- The `for u, v in graph.edges()` loop of `validate_edges`. -/
def validate_edges_loop {n : ℕ} (V : Validator n) :
    List (String × String) → EdgeAcc → EdgeAcc
  | [], acc => acc
  | (u, v) :: rest, acc =>
    match get_ontology_class V u, get_ontology_class V v with
    | some cu, some cv =>
      match semanticDistance V.onto cu cv with
      | some d =>
        validate_edges_loop V rest
          { valid_rels := acc.valid_rels + (if d < 5 then 1 else 0),
            weak_rels := acc.weak_rels + (if d < 5 then 0 else 1),
            total_dist := acc.total_dist + d,
            count_dist := acc.count_dist + 1,
            details := acc.details ++
              [(u, v, if d < 5 then EdgeStatus.strong else EdgeStatus.weak, some (some d))] }
      | none =>
        validate_edges_loop V rest
          { acc with details := acc.details ++ [(u, v, EdgeStatus.disconnected, some none)] }
    | _, _ =>
      validate_edges_loop V rest
        { acc with details := acc.details ++ [(u, v, EdgeStatus.unknown_nodes, none)] }

structure EdgeReport where
  total_edges : ℕ
  valid_rels : ℕ
  weak_rels : ℕ
  avg_distance : ℚ
  details : List EdgeDetail

/-- `GraphValidator.validate_edges`. -/
def validate_edges {n : ℕ} (V : Validator n) (edges : List (String × String)) : EdgeReport :=
  let acc := validate_edges_loop V edges ⟨0, 0, 0, 0, []⟩
  { total_edges := edges.length
    valid_rels := acc.valid_rels
    weak_rels := acc.weak_rels
    avg_distance := if 0 < acc.count_dist then (acc.total_dist : ℚ) / (acc.count_dist : ℚ) else 0
    details := acc.details }

structure GraphReport where
  total_nodes : ℕ
  valid_nodes : ℕ
  invalid_nodes : ℕ
  node_details : List (String × TermResult)
  total_edges : ℕ
  edge_report : Option EdgeReport
  precision : ℚ

/-- The node-validation loop of `validate_graph`
(`valid`, `invalid`, `node_details` accumulator). -/
def validate_graph_loop {n : ℕ} (V : Validator n) :
    List String → ℕ × ℕ × List (String × TermResult) → ℕ × ℕ × List (String × TermResult)
  | [], acc => acc
  | node :: rest, acc =>
    let result := validate_term V node
    validate_graph_loop V rest
      (acc.1 + (if result.valid then 1 else 0),
       acc.2.1 + (if result.valid then 0 else 1),
       acc.2.2 ++ [(node, result)])

/-- `GraphValidator.validate_graph`: node validation, precision (left at
its 0.0 initialisation for an empty graph), and the edge report exactly
when `self.ontologies` is non-empty. -/
def validate_graph {n : ℕ} (V : Validator n) (nodes : List String)
    (edges : List (String × String)) : GraphReport :=
  let acc := validate_graph_loop V nodes (0, 0, [])
  { total_nodes := nodes.length
    valid_nodes := acc.1
    invalid_nodes := acc.2.1
    node_details := acc.2.2
    total_edges := edges.length
    edge_report := if V.ontologies.isEmpty then none else some (validate_edges V edges)
    precision := if 0 < nodes.length then (acc.1 : ℚ) / (nodes.length : ℚ) else 0 }

/-! ## Lemmas and claims about edge/graph validation -/

/-- Per-edge classification table (the specification's wording). -/
def classifyEdge {n : ℕ} (V : Validator n) (e : String × String) : EdgeDetail :=
  match get_ontology_class V e.1, get_ontology_class V e.2 with
  | some cu, some cv =>
    match semanticDistance V.onto cu cv with
    | some d =>
      (e.1, e.2, if d < 5 then EdgeStatus.strong else EdgeStatus.weak, some (some d))
    | none => (e.1, e.2, EdgeStatus.disconnected, some none)
  | _, _ => (e.1, e.2, EdgeStatus.unknown_nodes, none)

/-- Finite semantic distances of the edges whose endpoints both resolve. -/
def edgeFiniteDists {n : ℕ} (V : Validator n) (edges : List (String × String)) : List ℕ :=
  edges.filterMap (fun e =>
    match get_ontology_class V e.1, get_ontology_class V e.2 with
    | some cu, some cv => semanticDistance V.onto cu cv
    | _, _ => none)

theorem validate_edges_loop_spec {n : ℕ} (V : Validator n) :
    ∀ (edges : List (String × String)) (acc : EdgeAcc),
      (validate_edges_loop V edges acc).details = acc.details ++ edges.map (classifyEdge V) ∧
      (validate_edges_loop V edges acc).total_dist
          = acc.total_dist + (edgeFiniteDists V edges).sum ∧
      (validate_edges_loop V edges acc).count_dist
          = acc.count_dist + (edgeFiniteDists V edges).length := by
  intro edges
  induction edges with
  | nil =>
    intro acc
    refine ⟨by simp [validate_edges_loop], ?_, ?_⟩ <;>
      simp [validate_edges_loop, edgeFiniteDists]
  | cons e rest ih =>
    rcases e with ⟨u, v⟩
    intro acc
    rcases hu : get_ontology_class V u with _ | cu
    · obtain ⟨ihd, iht, ihc⟩ :=
        ih { acc with details := acc.details ++ [(u, v, EdgeStatus.unknown_nodes, none)] }
      refine ⟨?_, ?_, ?_⟩ <;>
        simp [validate_edges_loop, hu, classifyEdge, edgeFiniteDists, ihd, iht, ihc]
    · rcases hv : get_ontology_class V v with _ | cv
      · obtain ⟨ihd, iht, ihc⟩ :=
          ih { acc with details := acc.details ++ [(u, v, EdgeStatus.unknown_nodes, none)] }
        refine ⟨?_, ?_, ?_⟩ <;>
          simp [validate_edges_loop, hu, hv, classifyEdge, edgeFiniteDists, ihd, iht, ihc]
      · rcases hd : semanticDistance V.onto cu cv with _ | d
        · obtain ⟨ihd, iht, ihc⟩ :=
            ih { acc with details := acc.details ++ [(u, v, EdgeStatus.disconnected, some none)] }
          refine ⟨?_, ?_, ?_⟩ <;>
            simp [validate_edges_loop, hu, hv, hd, classifyEdge, edgeFiniteDists, ihd, iht, ihc]
        · obtain ⟨ihd, iht, ihc⟩ :=
            ih { valid_rels := acc.valid_rels + (if d < 5 then 1 else 0),
                 weak_rels := acc.weak_rels + (if d < 5 then 0 else 1),
                 total_dist := acc.total_dist + d,
                 count_dist := acc.count_dist + 1,
                 details := acc.details ++
                   [(u, v, if d < 5 then EdgeStatus.strong else EdgeStatus.weak,
                     some (some d))] }
          refine ⟨?_, ?_, ?_⟩ <;>
            simp [validate_edges_loop, hu, hv, hd, classifyEdge, edgeFiniteDists,
              ihd, iht, ihc] <;>
            omega

/-- C2: `validate_edges` classifies each edge by the specified table —
`unknown_nodes` when an endpoint fails to resolve, `strong` for finite
distance < 5, `weak` for 5 ≤ distance < infinity, `disconnected` for
infinity — and the reported average distance is the arithmetic mean
over exactly the edges with finite distance, 0 when none exists. -/
theorem validate_edges_spec {n : ℕ} (V : Validator n) (edges : List (String × String)) :
    (validate_edges V edges).details = edges.map (classifyEdge V) ∧
    (∀ u v, (get_ontology_class V u = none ∨ get_ontology_class V v = none) →
      classifyEdge V (u, v) = (u, v, EdgeStatus.unknown_nodes, none)) ∧
    (∀ u v cu cv d, get_ontology_class V u = some cu → get_ontology_class V v = some cv →
      semanticDistance V.onto cu cv = some d →
      classifyEdge V (u, v)
          = (u, v, if d < 5 then EdgeStatus.strong else EdgeStatus.weak, some (some d))) ∧
    (∀ u v cu cv, get_ontology_class V u = some cu → get_ontology_class V v = some cv →
      semanticDistance V.onto cu cv = none →
      classifyEdge V (u, v) = (u, v, EdgeStatus.disconnected, some none)) ∧
    ((validate_edges V edges).avg_distance =
      if edgeFiniteDists V edges = [] then 0
      else ((edgeFiniteDists V edges).sum : ℚ) / ((edgeFiniteDists V edges).length : ℚ)) := by
  obtain ⟨hd, ht, hc⟩ := validate_edges_loop_spec V edges ⟨0, 0, 0, 0, []⟩
  refine ⟨?_, ?_, ?_, ?_, ?_⟩
  · unfold validate_edges
    dsimp only
    rw [hd]
    simp
  · intro u v h
    rcases h with h | h
    · unfold classifyEdge
      rw [h]
    · unfold classifyEdge
      rw [h]
      dsimp only
      rcases get_ontology_class V u with _ | cu <;> rfl
  · intro u v cu cv d h1 h2 h3
    unfold classifyEdge
    rw [h1, h2]
    dsimp only
    rw [h3]
  · intro u v cu cv h1 h2 h3
    unfold classifyEdge
    rw [h1, h2]
    dsimp only
    rw [h3]
  · unfold validate_edges
    dsimp only
    rw [ht, hc]
    simp only [Nat.zero_add]
    by_cases hne : edgeFiniteDists V edges = []
    · rw [if_pos hne, hne]
      simp
    · rw [if_neg hne, if_pos (by
        have := List.length_pos.mpr hne
        omega)]

theorem validate_graph_loop_spec {n : ℕ} (V : Validator n) :
    ∀ (nodes : List String) (acc : ℕ × ℕ × List (String × TermResult)),
      (validate_graph_loop V nodes acc).1 + (validate_graph_loop V nodes acc).2.1
          = acc.1 + acc.2.1 + nodes.length ∧
      (validate_graph_loop V nodes acc).2.2.map Prod.fst = acc.2.2.map Prod.fst ++ nodes := by
  intro nodes
  induction nodes with
  | nil => intro acc; simp [validate_graph_loop]
  | cons node rest ih =>
    intro acc
    obtain ⟨ihn, ihd⟩ := ih
      (acc.1 + (if (validate_term V node).valid then 1 else 0),
       acc.2.1 + (if (validate_term V node).valid then 0 else 1),
       acc.2.2 ++ [(node, validate_term V node)])
    constructor
    · rw [show validate_graph_loop V (node :: rest) acc = validate_graph_loop V rest
          (acc.1 + (if (validate_term V node).valid then 1 else 0),
           acc.2.1 + (if (validate_term V node).valid then 0 else 1),
           acc.2.2 ++ [(node, validate_term V node)]) from rfl]
      rw [ihn]
      dsimp only
      by_cases hv : (validate_term V node).valid <;> simp [hv] <;> omega
    · rw [show validate_graph_loop V (node :: rest) acc = validate_graph_loop V rest
          (acc.1 + (if (validate_term V node).valid then 1 else 0),
           acc.2.1 + (if (validate_term V node).valid then 0 else 1),
           acc.2.2 ++ [(node, validate_term V node)]) from rfl]
      rw [ihd]
      simp

/-- C6: `validate_graph` reports precision `valid/total` on a non-empty
graph and 0 (still a well-defined report, node loop included) on an
empty graph; the edge report is present exactly when at least one
ontology is loaded, while node validation always runs. -/
theorem validate_graph_report_spec {n : ℕ} (V : Validator n) (nodes : List String)
    (edges : List (String × String)) :
    (nodes = [] → (validate_graph V nodes edges).precision = 0) ∧
    (nodes ≠ [] → (validate_graph V nodes edges).precision
        = ((validate_graph V nodes edges).valid_nodes : ℚ)
            / ((validate_graph V nodes edges).total_nodes : ℚ)) ∧
    ((validate_graph V nodes edges).edge_report.isSome = true ↔
      V.ontologies.isEmpty = false) ∧
    (validate_graph V nodes edges).node_details.map Prod.fst = nodes := by
  refine ⟨?_, ?_, ?_, ?_⟩
  · intro h
    subst h
    rfl
  · intro h
    unfold validate_graph
    dsimp only
    rw [if_pos (List.length_pos.mpr h)]
  · unfold validate_graph
    dsimp only
    cases he : V.ontologies.isEmpty <;> simp [he]
  · unfold validate_graph
    dsimp only
    have := (validate_graph_loop_spec V nodes (0, 0, [])).2
    simpa using this

/-- C10: the report of `validate_graph` is internally consistent:
`valid_nodes + invalid_nodes = total_nodes`, the node details carry one
entry per graph node in order, and on duplicate-free node sets each node
has exactly one entry. -/
theorem validate_graph_consistency {n : ℕ} (V : Validator n) (nodes : List String)
    (edges : List (String × String)) :
    (validate_graph V nodes edges).valid_nodes + (validate_graph V nodes edges).invalid_nodes
        = (validate_graph V nodes edges).total_nodes ∧
    (validate_graph V nodes edges).node_details.map Prod.fst = nodes ∧
    (nodes.Nodup →
      ∀ x ∈ nodes, ((validate_graph V nodes edges).node_details.map Prod.fst).count x = 1) := by
  obtain ⟨hn, hd⟩ := validate_graph_loop_spec V nodes (0, 0, [])
  refine ⟨?_, ?_, ?_⟩
  · unfold validate_graph
    dsimp only
    rw [hn]
    simp
  · unfold validate_graph
    dsimp only
    simpa using hd
  · intro hnd x hx
    unfold validate_graph
    dsimp only
    rw [show ((validate_graph_loop V nodes (0, 0, [])).2.2.map Prod.fst) = nodes from
      by simpa using hd]
    exact List.count_eq_one_of_mem hnd hx

/-- A validator with no loaded ontology (vocabulary only). -/
def sampleValidatorNoOnto : Validator 1 where
  onto := ⟨fun _ => [], fun _ => true⟩
  ontologies := []
  known_terms := ["neuron"]
  get_classes_by_label := fun _ => []
  extractOne := fun _ _ => none
  extract2 := fun _ => []

/-- The same validator with one loaded ontology handle. -/
def sampleValidatorOnto : Validator 1 where
  onto := ⟨fun _ => [], fun _ => true⟩
  ontologies := [⟨fun _ => none, fun _ => none⟩]
  known_terms := ["neuron"]
  get_classes_by_label := fun _ => []
  extractOne := fun _ _ => none
  extract2 := fun _ => []

/-- Witness for `validate_graph_report_spec` at concrete inputs. -/
theorem validate_graph_report_spec_witness :
    (validate_graph sampleValidatorNoOnto [] []).precision = 0 ∧
    (validate_graph sampleValidatorNoOnto ["neuron"] []).precision = 1 ∧
    (validate_graph sampleValidatorNoOnto [] []).edge_report.isSome = false ∧
    (validate_graph sampleValidatorOnto [] []).edge_report.isSome = true := by
  refine ⟨(validate_graph_report_spec sampleValidatorNoOnto [] []).1 rfl, ?_, ?_, ?_⟩
  · have h1 : (validate_graph sampleValidatorNoOnto ["neuron"] []).valid_nodes = 1 := rfl
    have h2 : (validate_graph sampleValidatorNoOnto ["neuron"] []).total_nodes = 1 := rfl
    rw [(validate_graph_report_spec sampleValidatorNoOnto ["neuron"] []).2.1 (by simp),
      h1, h2]
    norm_num
  · have h := (validate_graph_report_spec sampleValidatorNoOnto [] []).2.2.1
    cases hs : (validate_graph sampleValidatorNoOnto [] []).edge_report.isSome
    · rfl
    · exact absurd (h.mp hs) (by decide)
  · exact (validate_graph_report_spec sampleValidatorOnto [] []).2.2.1.mpr rfl

/-- Witness for `validate_graph_consistency` at concrete inputs. -/
theorem validate_graph_consistency_witness :
    (validate_graph sampleValidatorNoOnto ["a", "b"] []).valid_nodes
        + (validate_graph sampleValidatorNoOnto ["a", "b"] []).invalid_nodes
        = (validate_graph sampleValidatorNoOnto ["a", "b"] []).total_nodes ∧
    (validate_graph sampleValidatorNoOnto ["a", "b"] []).node_details.map Prod.fst
        = ["a", "b"] ∧
    ((validate_graph sampleValidatorNoOnto ["a", "b"] []).node_details.map Prod.fst).count "a"
        = 1 :=
  ⟨(validate_graph_consistency sampleValidatorNoOnto ["a", "b"] []).1,
   (validate_graph_consistency sampleValidatorNoOnto ["a", "b"] []).2.1,
   (validate_graph_consistency sampleValidatorNoOnto ["a", "b"] []).2.2
     (by decide) "a" (by decide)⟩

/-- A validator that resolves "a" and "b" to the two sibling concepts
of `sampleOnto` and nothing else. -/
def edgeValidator : Validator 3 where
  onto := sampleOnto
  ontologies := [⟨fun _ => none, fun _ => none⟩]
  known_terms := []
  get_classes_by_label := fun s => if s = "a" then [0] else if s = "b" then [1] else []
  extractOne := fun _ _ => none
  extract2 := fun _ => []

/-- Witness for `validate_edges_spec` at concrete inputs. -/
theorem validate_edges_spec_witness :
    classifyEdge edgeValidator ("a", "x") = ("a", "x", EdgeStatus.unknown_nodes, none) ∧
    classifyEdge edgeValidator ("a", "b") = ("a", "b", EdgeStatus.strong, some (some 2)) ∧
    (validate_edges edgeValidator [("a", "b"), ("a", "x")]).avg_distance = 2 := by
  refine ⟨?_, ?_, ?_⟩
  · exact (validate_edges_spec edgeValidator []).2.1 "a" "x" (Or.inr (by decide))
  · exact (validate_edges_spec edgeValidator []).2.2.1 "a" "b" 0 1 2
      (by decide) (by decide) (by decide)
  · rw [(validate_edges_spec edgeValidator [("a", "b"), ("a", "x")]).2.2.2.2]
    have he : edgeFiniteDists edgeValidator [("a", "b"), ("a", "x")] = [2] := by decide
    rw [he]
    norm_num

/-- C9: when the exact label-index lookup and the structural search both
fail and the vocabulary is non-empty, the fuzzy fallback accepts the
best-scoring label iff its score clears the adaptive cutoff or it beats
the runner-up by ≥ 10 points while staying within 5 points of the
cutoff; an accepted label is resolved through the label index (with the
final per-ontology label search as last resort), and rejection yields
`none`. -/
theorem get_ontology_class_fuzzy_spec {n : ℕ} (V : Validator n) (term : String)
    (best_label : String) (best_score : ℚ) (rest : List (String × ℚ))
    (h1 : V.get_classes_by_label (pyLower term) = [])
    (h2 : searchOntologies V.ontologies (pyLower term) term = none)
    (h3 : V.known_terms ≠ [])
    (h4 : V.extract2 (pyLower term) = (best_label, best_score) :: rest) :
    (fuzzyAccept (choose_cutoff (pyLower term) V.known_terms.length) best_score
        (rest.head?.map Prod.snd) = true →
      get_ontology_class V term =
        (match V.get_classes_by_label best_label with
         | c :: _ => some c
         | [] => searchLabelOnly V.ontologies best_label)) ∧
    (fuzzyAccept (choose_cutoff (pyLower term) V.known_terms.length) best_score
        (rest.head?.map Prod.snd) = false →
      get_ontology_class V term = none) ∧
    (∀ (cutoff : ℤ) (second : Option ℚ),
      fuzzyAccept cutoff best_score second = true ↔
        (best_score ≥ (cutoff : ℚ) ∨
          ∃ s2, second = some s2 ∧ best_score - s2 ≥ 10 ∧
            best_score ≥ (cutoff : ℚ) - 5)) := by
  have hu : get_ontology_class V term =
      (if fuzzyAccept (choose_cutoff (pyLower term) V.known_terms.length) best_score
          (rest.head?.map Prod.snd) then
        (match V.get_classes_by_label best_label with
         | c :: _ => some c
         | [] => searchLabelOnly V.ontologies best_label)
      else none) := by
    unfold get_ontology_class
    dsimp only
    rw [h1]
    dsimp only
    rw [h2]
    dsimp only
    rw [if_pos h3, h4]
  refine ⟨?_, ?_, ?_⟩
  · intro ha
    rw [hu, if_pos ha]
  · intro ha
    rw [hu, if_neg (by rw [ha]; exact Bool.false_ne_true)]
  · intro cutoff second
    unfold fuzzyAccept
    cases second with
    | none => simp
    | some s2 => simp

/-- A validator whose fuzzy oracle proposes "neuron" (score 92) for
unresolved terms, with "neuron" resolvable through the label index. -/
def fuzzyValidator : Validator 1 where
  onto := ⟨fun _ => [], fun _ => true⟩
  ontologies := []
  known_terms := ["neuron"]
  get_classes_by_label := fun s => if s = "neuron" then [0] else []
  extractOne := fun _ _ => none
  extract2 := fun _ => [("neuron", 92)]

/-- Witness for `get_ontology_class_fuzzy_spec` at concrete inputs. -/
theorem get_ontology_class_fuzzy_spec_witness :
    get_ontology_class fuzzyValidator "neoron" = some 0 := by
  have h := (get_ontology_class_fuzzy_spec fuzzyValidator "neoron" "neuron" 92 []
    (by decide) rfl (by decide) rfl).1 (by decide)
  exact h.trans (by decide)

/-! ## `src/link_predictor.py` — LinkPredictor

`predict` evaluates the configured networkx scorer (oracle `method`,
scores as rationals), sorts the triples by score with Python's stable
`list.sort(key=lambda x: x[2], reverse=True)`, and truncates to
`top_k`. -/

abbrev PredTriple := String × String × ℚ

/-- One insertion step of the stable descending sort: an
earlier-enumerated triple goes in front of the first later triple whose
score is not higher, so equal scores keep their enumeration order. -/
def insertDesc (x : PredTriple) : List PredTriple → List PredTriple
  | [] => [x]
  | y :: ys => if y.2.2 ≤ x.2.2 then x :: y :: ys else y :: insertDesc x ys

/-- Stable sort by score, highest first. -/
def sortDesc (l : List PredTriple) : List PredTriple :=
  l.foldr insertDesc []

/-- `LinkPredictor.predict`: sorted descending top-k scores; the second
component is the graph as the call leaves it. -/
def predict {γ : Type} (method : γ → List PredTriple) (graph : γ) (top_k : ℕ) :
    List PredTriple × γ :=
  ((sortDesc (method graph)).take top_k, graph)

theorem insertDesc_perm (x : PredTriple) :
    ∀ l : List PredTriple, List.Perm (insertDesc x l) (x :: l) := by
  intro l
  induction l with
  | nil => exact List.Perm.refl _
  | cons y ys ih =>
    unfold insertDesc
    by_cases h : y.2.2 ≤ x.2.2
    · rw [if_pos h]
    · rw [if_neg h]
      exact (List.Perm.cons y ih).trans (List.Perm.swap x y ys)

theorem sortDesc_perm (l : List PredTriple) : List.Perm (sortDesc l) l := by
  induction l with
  | nil => exact List.Perm.refl _
  | cons x xs ih =>
    exact (insertDesc_perm x (sortDesc xs)).trans (List.Perm.cons x ih)

theorem insertDesc_pairwise (x : PredTriple) :
    ∀ l : List PredTriple, l.Pairwise (fun a b => b.2.2 ≤ a.2.2) →
      (insertDesc x l).Pairwise (fun a b => b.2.2 ≤ a.2.2) := by
  intro l
  induction l with
  | nil => intro _; simp [insertDesc]
  | cons y ys ih =>
    intro h
    rcases List.pairwise_cons.mp h with ⟨h1, h2⟩
    unfold insertDesc
    by_cases hc : y.2.2 ≤ x.2.2
    · rw [if_pos hc]
      refine List.pairwise_cons.mpr ⟨?_, h⟩
      intro z hz
      rcases List.mem_cons.mp hz with hz | hz
      · subst hz; exact hc
      · exact le_trans (h1 z hz) hc
    · rw [if_neg hc]
      refine List.pairwise_cons.mpr ⟨?_, ih h2⟩
      intro z hz
      rcases List.mem_cons.mp ((insertDesc_perm x ys).mem_iff.mp hz) with hz | hz
      · subst hz; exact le_of_lt (not_le.mp hc)
      · exact h1 z hz

theorem sortDesc_pairwise (l : List PredTriple) :
    (sortDesc l).Pairwise (fun a b => b.2.2 ≤ a.2.2) := by
  induction l with
  | nil => simp [sortDesc]
  | cons x xs ih => exact insertDesc_pairwise x (sortDesc xs) ih

/-- Stability of the sort: for every score value, the triples carrying
that score appear in the sorted list in the same relative order as in
the input. -/
theorem filter_insertDesc (s : ℚ) (x : PredTriple) :
    ∀ l : List PredTriple,
      (insertDesc x l).filter (fun p => decide (p.2.2 = s)) =
        if x.2.2 = s then x :: l.filter (fun p => decide (p.2.2 = s))
        else l.filter (fun p => decide (p.2.2 = s)) := by
  intro l
  induction l with
  | nil =>
    unfold insertDesc
    by_cases hx : x.2.2 = s <;> simp [List.filter_cons, hx]
  | cons y ys ih =>
    unfold insertDesc
    by_cases hc : y.2.2 ≤ x.2.2
    · rw [if_pos hc]
      by_cases hx : x.2.2 = s <;> simp [List.filter_cons, hx]
    · rw [if_neg hc]
      by_cases hx : x.2.2 = s
      · have hy : ¬ (y.2.2 = s) := by
          intro hys
          exact hc (le_of_eq (hys.trans hx.symm))
        simp [List.filter_cons, hy, ih, hx]
      · simp [List.filter_cons, ih, hx]

theorem sortDesc_filter (s : ℚ) (l : List PredTriple) :
    (sortDesc l).filter (fun p => decide (p.2.2 = s))
      = l.filter (fun p => decide (p.2.2 = s)) := by
  induction l with
  | nil => rfl
  | cons x xs ih =>
    have hstep : sortDesc (x :: xs) = insertDesc x (sortDesc xs) := rfl
    rw [hstep, filter_insertDesc]
    by_cases hx : x.2.2 = s <;> simp [List.filter_cons, hx, ih]

/-- C7: `predict` returns the predictor's triples sorted by score,
highest first, truncated to length at most `top_k`; equal scores keep
the predictor's native enumeration order (stable sort, witnessed by the
per-score filter equality together with the permutation property); the
input graph comes back unchanged. -/
theorem predict_spec {γ : Type} (method : γ → List PredTriple) (graph : γ) (top_k : ℕ) :
    (predict method graph top_k).2 = graph ∧
    (predict method graph top_k).1.length ≤ top_k ∧
    (predict method graph top_k).1 = (sortDesc (method graph)).take top_k ∧
    (predict method graph top_k).1.Pairwise (fun a b => b.2.2 ≤ a.2.2) ∧
    List.Perm (sortDesc (method graph)) (method graph) ∧
    (∀ s : ℚ, (sortDesc (method graph)).filter (fun p => decide (p.2.2 = s))
        = (method graph).filter (fun p => decide (p.2.2 = s))) := by
  refine ⟨rfl, ?_, rfl, ?_, sortDesc_perm _, fun s => sortDesc_filter s _⟩
  · unfold predict
    dsimp only
    rw [List.length_take]
    exact min_le_left _ _
  · exact (sortDesc_pairwise (method graph)).sublist (List.take_sublist _ _)

end NeuroKG
